import Mathlib

/-!
Verification of the trace-labelling core of `utils.py` (constraint checking,
sequence matching and attribute matching over event traces).

The shallow embedding below mirrors the Python source function by function.
Events are modelled as their Python attribute dictionary: an association list
from string keys to string values (`event[k]`, `k in event`).  A trace is the
ordered list of its events; trace-level attributes (Python `trace.attributes`)
are carried separately by `TraceWithAttrs`.
-/

namespace DevMining

abbrev Event : Type := List (String × String)

/-- Python `event[k]` as an `Option` (`none` models `k not in event`). -/
def evFind (e : Event) (k : String) : Option String :=
  (e.find? (fun p => p.1 == k)).map (fun p => p.2)

/-- Python `k in event`. -/
def evHas (e : Event) (k : String) : Bool := (evFind e k).isSome

/-- Python `event[k]`, totalised with default `""`; the source only evaluates it
where the key is present. -/
def evGet (e : Event) (k : String) : String := (evFind e k).getD ""

abbrev Trace : Type := List Event

/-- A trace together with its trace-level attribute map (`trace.attributes`). -/
structure TraceWithAttrs : Type where
  events : Trace
  attributes : List (String × String)

/-- An event carrying only its activity name, for concrete instances. -/
def mkEv (n : String) : Event := [("concept:name", n)]

/-- One `rev_index[event[name]].append(ind)` step (utils.py line 23) on the
association-list model of the `defaultdict(list)`: append `i` to the key's
list, creating the key at the end if absent. -/
def updIndex : List (String × List Nat) → String → Nat → List (String × List Nat)
  | [], k, i => [(k, [i])]
  | (k', l) :: rest, k, i =>
    if k' = k then (k', l ++ [i]) :: rest else (k', l) :: updIndex rest k i

/-- The `for ind, event in enumerate(trace)` loop of `create_trace_reverse_index`
(utils.py lines 21-24), with the running position `i` made explicit. -/
def buildRevIndex (nm : String) : Trace → Nat → List (String × List Nat) → List (String × List Nat)
  | [], _, m => m
  | e :: rest, i, m => buildRevIndex nm rest (i + 1) (updIndex m (evGet e nm) i)

/-- utils.py lines 9-25: reverse index mapping each activity name occurring in the
trace to the list of positions at which it occurs. -/
def create_trace_reverse_index (trace : Trace) (nm : String) : List (String × List Nat) :=
  buildRevIndex nm trace 0 []

/-- Dictionary lookup on the association-list model (`rev_trace[a]` / `a in rev_trace`). -/
def lookupIdx (m : List (String × List Nat)) (a : String) : Option (List Nat) :=
  (m.find? (fun p => p.1 == a)).map (fun p => p.2)

/-- utils.py lines 48-66, `check_response_constraint`: verdicts are
0 = cannot be fulfilled, 1 = vacuously fulfilled, 2 = fulfilled; the source
compares the last occurrence positions (`rev_trace[a][-1]`). -/
def check_response_constraint (rev : List (String × List Nat)) (a b : String) : Nat :=
  match lookupIdx rev a with
  | none => 1
  | some la =>
    match lookupIdx rev b with
    | none => 0
    | some lb => if la.getLastD 0 < lb.getLastD 0 then 2 else 0

/-- utils.py lines 83-103, `check_precedence_constraint`: compares the first
occurrence positions (`rev_trace[a][0]`). -/
def check_precedence_constraint (rev : List (String × List Nat)) (a b : String) : Nat :=
  match lookupIdx rev b with
  | none => 1
  | some lb =>
    match lookupIdx rev a with
    | none => 0
    | some la => if la.headD 0 < lb.headD 0 then 2 else 0

/-- The separator of `check_sequence_strict_order` (utils.py line 121). -/
def hackDelim : Char := '␟'

/-- The left-to-right scan underlying Python `str.count` for a non-empty needle:
at each position, if the needle starts here, count it and skip past it (`skip`
pending positions to ignore), otherwise move one position on.  This is exactly
CPython's non-overlapping substring counting. -/
def greedyCountGo {α : Type} [BEq α] (pat : List α) : List α → Nat → Nat
  | [], _ => 0
  | c :: t, skip =>
    if 0 < skip then greedyCountGo pat t (skip - 1)
    else if pat.isPrefixOf (c :: t) then 1 + greedyCountGo pat t (pat.length - 1)
    else greedyCountGo pat t 0

/-- Python `s.count(pat)` on lists: non-overlapping occurrence count; for the
empty needle Python returns `len(s) + 1`. -/
def pyCount {α : Type} [BEq α] (s pat : List α) : Nat :=
  if pat.isEmpty then s.length + 1 else greedyCountGo pat s 0

/-- utils.py lines 117-143, `check_sequence_strict_order`: join the activity names
of the trace and of the pattern with `hackDelim` and compare the substring count
with `count`.  The guard compares the trace length (not the pattern length) with
`count`, exactly as the source does. -/
def check_sequence_strict_order (trace : Trace) (sequence : List String) (count : Nat)
    (nm : String) : Nat :=
  if trace.length < count then 0
  else
    let search_string := List.intercalate [hackDelim] (trace.map (fun e => (evGet e nm).data))
    let search_seq := List.intercalate [hackDelim] (sequence.map String.data)
    if count ≤ pyCount search_string search_seq then 2 else 0

/-- Loop of `check_sequence_nonstrict_order_interleaved` (utils.py lines 159-173):
`copy_seq` is the working list of still-needed pattern activities and `cnt` the
number of completed occurrences; Python's
`try: copy_seq.remove(name) except: continue` is modelled by the membership
test with `List.erase` removing the first matching element, as `list.remove` does. -/
def nonstrictIntGo (sequence : List String) : Trace → List String → Nat → Nat
  | [], _, cnt => cnt
  | e :: rest, copy_seq, cnt =>
    let name := evGet e "concept:name"
    if name ∈ sequence then
      if name ∈ copy_seq then
        let copy2 := copy_seq.erase name
        if copy2.isEmpty then nonstrictIntGo sequence rest sequence (cnt + 1)
        else nonstrictIntGo sequence rest copy2 cnt
      else nonstrictIntGo sequence rest copy_seq cnt
    else nonstrictIntGo sequence rest copy_seq cnt

/-- utils.py lines 146-178, `check_sequence_nonstrict_order_interleaved`. -/
def check_sequence_nonstrict_order_interleaved (trace : Trace) (sequence : List String)
    (count : Nat) : Nat :=
  if count ≤ nonstrictIntGo sequence trace sequence 0 then 2 else 0

/-- Loop of `check_sequence_strict_order_interleaved` (utils.py lines 192-204):
the working copy is popped at the head when the event's name matches it
(`if name == copy_seq[0]: copy_seq.pop(0)`); the head access is guarded by the
membership test, as in the source, where `copy_seq` is never empty when read. -/
def strictIntGo (sequence : List String) : Trace → List String → Nat → Nat
  | [], _, cnt => cnt
  | e :: rest, copy_seq, cnt =>
    let name := evGet e "concept:name"
    if name ∈ sequence then
      let copy2 := if copy_seq.head? = some name then copy_seq.tail else copy_seq
      if copy2.isEmpty then strictIntGo sequence rest sequence (cnt + 1)
      else strictIntGo sequence rest copy2 cnt
    else strictIntGo sequence rest copy_seq cnt

/-- utils.py lines 181-209, `check_sequence_strict_order_interleaved`. -/
def check_sequence_strict_order_interleaved (trace : Trace) (sequence : List String)
    (count : Nat) : Nat :=
  if count ≤ strictIntGo sequence trace sequence 0 then 2 else 0

/-- Twin of `nonstrictIntGo` on a list of names, for relating the scan to the
filtered name sequence. -/
def nonstrictIntGoN (sequence : List String) : List String → List String → Nat → Nat
  | [], _, cnt => cnt
  | name :: rest, copy_seq, cnt =>
    if name ∈ sequence then
      if name ∈ copy_seq then
        let copy2 := copy_seq.erase name
        if copy2.isEmpty then nonstrictIntGoN sequence rest sequence (cnt + 1)
        else nonstrictIntGoN sequence rest copy2 cnt
      else nonstrictIntGoN sequence rest copy_seq cnt
    else nonstrictIntGoN sequence rest copy_seq cnt

/-- Twin of `strictIntGo` on a list of names. -/
def strictIntGoN (sequence : List String) : List String → List String → Nat → Nat
  | [], _, cnt => cnt
  | name :: rest, copy_seq, cnt =>
    if name ∈ sequence then
      let copy2 := if copy_seq.head? = some name then copy_seq.tail else copy_seq
      if copy2.isEmpty then strictIntGoN sequence rest sequence (cnt + 1)
      else strictIntGoN sequence rest copy2 cnt
    else strictIntGoN sequence rest copy_seq cnt

/-- The aggregate `found_indices` of `check_sequence_nonstrict_order`
(utils.py lines 228-251) after `sorted(list(set(...)))`.  A window of
`m = len(sequence)` consecutive names starting at `i` is appended exactly once
over the whole permutation loop, namely by the unique distinct permutation of
`sequence` it equals (so the list before deduplication has the same length as
after it); hence the collected, sorted set is the ascending list of window
starts whose window is a permutation of `sequence`.  The source iterates
`for i in range(len(search_list) - len(sequence))`, so the start
`len - m` itself is never tried. -/
def foundIndices (trace : Trace) (sequence : List String) (nm : String) : List Nat :=
  let search_list := trace.map (fun e => evGet e nm)
  (List.range (search_list.length - sequence.length)).filter
    (fun i => ((search_list.drop i).take sequence.length).isPerm sequence)

/-- Greedy non-overlap filtering loop of utils.py lines 256-260. -/
def greedyGo (m : Nat) : Nat → List Nat → List Nat
  | _, [] => []
  | next_min, i :: rest =>
    if next_min ≤ i then i :: greedyGo m (i + m) rest else greedyGo m next_min rest

/-- utils.py lines 254-260: keep the first found index, then keep every index at
least `m` past the previously kept one.  The source reads `found_indices[0]`
only after checking `len(found_indices) >= count >= 1`; the empty case is
totalised to `[]`. -/
def greedyFilter (m : Nat) : List Nat → List Nat
  | [] => []
  | i0 :: rest => i0 :: greedyGo m (i0 + m) rest

/-- utils.py lines 212-265, `check_sequence_nonstrict_order`. -/
def check_sequence_nonstrict_order (trace : Trace) (sequence : List String) (count : Nat)
    (nm : String) : Nat :=
  if trace.length < count then 0
  else
    let found := foundIndices trace sequence nm
    if found.length < count then 0
    else if count ≤ (greedyFilter sequence.length found).length then 2 else 0

/-- Dictionary lookup on string-to-string association lists. -/
def lookupS (m : List (String × String)) (k : String) : Option String :=
  (m.find? (fun p => p.1 == k)).map (fun p => p.2)

/-- The checking loop shared by `check_trace_attribute` (utils.py lines 275-285)
and `check_trace_event_attributes` (lines 319-330): return 0 early on the first
missing or mismatching key, otherwise count matches and compare the total. -/
def attrLoop (ta : List (String × String)) (total : Nat) : List (String × String) → Nat → Nat
  | [], matched => if matched = total then 2 else 0
  | (k, v) :: rest, matched =>
    if lookupS ta k = some v then attrLoop ta total rest (matched + 1) else 0

/-- utils.py lines 269-285, `check_trace_attribute`: attribute values are strings
in the model, so Python's `str(v)` is the identity. -/
def check_trace_attribute (tr : TraceWithAttrs) (avd : List (String × String)) : Nat :=
  attrLoop tr.attributes avd.length avd 0

/-- Inner-loop body of `check_trace_event_attributes` (utils.py lines 313-315):
`if k in event and k not in event_attributes: event_attributes[k] = str(event[k])`. -/
def insAttr (e : Event) (acc2 : List (String × String)) (k : String) : List (String × String) :=
  if evHas e k ∧ lookupS acc2 k = none then acc2 ++ [(k, evGet e k)] else acc2

/-- Collection loop of `check_trace_event_attributes` (utils.py lines 311-315):
for each event in order and each requested key, record the event's value for
that key unless one is already recorded. -/
def collectEventAttrs (ks : List String) : Trace → List (String × String) → List (String × String)
  | [], acc => acc
  | e :: rest, acc => collectEventAttrs ks rest (ks.foldl (insAttr e) acc)

/-- utils.py lines 305-330, `check_trace_event_attributes`. -/
def check_trace_event_attributes (trace : Trace) (avd : List (String × String)) : Nat :=
  attrLoop (collectEventAttrs (avd.map (fun p => p.1)) trace []) avd.length avd 0

/-- Specification-side: the ascending list of the positions (offset by `i`) at
which activity `a` occurs in the trace, used to state the reverse-index and
constraint claims. -/
def occsFrom (nm a : String) : Trace → Nat → List Nat
  | [], _ => []
  | e :: rest, i =>
    if evGet e nm = a then i :: occsFrom nm a rest (i + 1) else occsFrom nm a rest (i + 1)

/-- Specification-side: the value recorded for key `k`, i.e. the value carried by
the first event in trace order that carries `k`. -/
def recordedVal (trace : Trace) (k : String) : Option String :=
  trace.findSome? (fun e => evFind e k)

/-- Specification-side: the number of (possibly overlapping) contiguous-run
occurrences of the pattern `pat` in the name sequence `names`. -/
def overlapRunCount (names pat : List String) : Nat :=
  ((List.range names.length).filter (fun i => pat.isPrefixOf (names.drop i))).length

/-- Specification-side: leftmost-greedy count of non-overlapping contiguous-run
occurrences of `pat` in `names` (scan left to right, restart after each match). -/
def runCountGreedy (names pat : List String) : Nat := greedyCountGo pat names 0

/-- Specification-side: every window start `0 ≤ i ≤ len - m` whose window of `m`
consecutive names is a permutation of the pattern — all matching windows of the
trace, including the one ending at the last event. -/
def allMatchingIndices (trace : Trace) (sequence : List String) (nm : String) : List Nat :=
  let search_list := trace.map (fun e => evGet e nm)
  (List.range (search_list.length - sequence.length + 1)).filter
    (fun i => ((search_list.drop i).take sequence.length).isPerm sequence)

/-- `pat` occurs as a contiguous block inside `s`. -/
def occursIn {α : Type} (pat s : List α) : Prop := ∃ u v, s = u ++ pat ++ v

/-- The single character of a one-character activity name (used to relate the
joined search string to the name sequence). -/
def toChar (s : String) : Char := s.data.headD hackDelim

/-! ### Reverse-index lemmas -/

theorem lookupIdx_nil (a : String) : lookupIdx [] a = none := rfl

theorem lookupIdx_cons (k : String) (l : List Nat) (rest : List (String × List Nat))
    (a : String) :
    lookupIdx ((k, l) :: rest) a = if k = a then some l else lookupIdx rest a := by
  by_cases h : k = a
  · simp [lookupIdx, List.find?_cons_of_pos, h]
  · simp only [lookupIdx]
    rw [List.find?_cons_of_neg]
    · simp [h]
    · simp [h]

theorem lookupIdx_updIndex :
    ∀ (m : List (String × List Nat)) (k : String) (i : Nat) (a : String),
      lookupIdx (updIndex m k i) a =
        if a = k then some ((lookupIdx m a).getD [] ++ [i]) else lookupIdx m a
  | [], k, i, a => by
    by_cases h : a = k
    · subst h; simp [updIndex, lookupIdx_cons, lookupIdx_nil]
    · have h2 : ¬ k = a := fun hh => h hh.symm
      simp [updIndex, lookupIdx_cons, lookupIdx_nil, h, h2]
  | (k', l) :: rest, k, i, a => by
    by_cases hk : k' = k
    · subst hk
      by_cases ha : a = k'
      · subst ha; simp [updIndex, lookupIdx_cons]
      · have h2 : ¬ k' = a := fun hh => ha hh.symm
        simp [updIndex, lookupIdx_cons, ha, h2]
    · by_cases ha : k' = a
      · subst ha
        simp [updIndex, lookupIdx_cons, hk]
      · simp [updIndex, lookupIdx_cons, hk, ha, lookupIdx_updIndex rest k i a]

theorem lookupIdx_buildRevIndex (nm a : String) :
    ∀ (trace : Trace) (i : Nat) (m : List (String × List Nat)),
      lookupIdx (buildRevIndex nm trace i m) a =
        if lookupIdx m a = none ∧ occsFrom nm a trace i = [] then none
        else some ((lookupIdx m a).getD [] ++ occsFrom nm a trace i)
  | [], i, m => by
    cases h : lookupIdx m a with
    | none => simp [buildRevIndex, occsFrom, h]
    | some l => simp [buildRevIndex, occsFrom, h]
  | e :: rest, i, m => by
    simp only [buildRevIndex]
    rw [lookupIdx_buildRevIndex nm a rest (i + 1) (updIndex m (evGet e nm) i)]
    by_cases hk : evGet e nm = a
    · have hupd : lookupIdx (updIndex m (evGet e nm) i) a =
          some ((lookupIdx m a).getD [] ++ [i]) := by
        rw [lookupIdx_updIndex]; simp [hk]
      simp only [occsFrom, if_pos hk, hupd]
      simp [List.append_assoc]
    · have hupd : lookupIdx (updIndex m (evGet e nm) i) a = lookupIdx m a := by
        rw [lookupIdx_updIndex]
        have : ¬ a = evGet e nm := fun hh => hk hh.symm
        simp [this]
      simp only [occsFrom, if_neg hk, hupd]

theorem lookupIdx_create (trace : Trace) (nm a : String) :
    lookupIdx (create_trace_reverse_index trace nm) a =
      if occsFrom nm a trace 0 = [] then none else some (occsFrom nm a trace 0) := by
  rw [create_trace_reverse_index, lookupIdx_buildRevIndex]
  simp [lookupIdx_nil]

theorem mem_occsFrom (nm a : String) :
    ∀ (trace : Trace) (i j : Nat),
      j ∈ occsFrom nm a trace i ↔
        i ≤ j ∧ (trace.get? (j - i)).map (fun e => evGet e nm) = some a
  | [], i, j => by simp [occsFrom]
  | e :: rest, i, j => by
    by_cases hk : evGet e nm = a
    · simp only [occsFrom, if_pos hk, List.mem_cons]
      constructor
      · rintro (rfl | hj)
        · exact ⟨Nat.le_refl j, by simp [hk]⟩
        · obtain ⟨h1, h2⟩ := (mem_occsFrom nm a rest (i + 1) j).mp hj
          refine ⟨by omega, ?_⟩
          have hji : j - i = (j - (i + 1)) + 1 := by omega
          rw [hji]
          simpa using h2
      · rintro ⟨h1, h2⟩
        rcases Nat.eq_or_lt_of_le h1 with heq | hlt
        · left; omega
        · right
          apply (mem_occsFrom nm a rest (i + 1) j).mpr
          refine ⟨by omega, ?_⟩
          have hji : j - i = (j - (i + 1)) + 1 := by omega
          rw [hji] at h2
          simpa using h2
    · simp only [occsFrom, if_neg hk]
      rw [mem_occsFrom nm a rest (i + 1) j]
      constructor
      · rintro ⟨h1, h2⟩
        refine ⟨by omega, ?_⟩
        have hji : j - i = (j - (i + 1)) + 1 := by omega
        rw [hji]
        simpa using h2
      · rintro ⟨h1, h2⟩
        rcases Nat.eq_or_lt_of_le h1 with heq | hlt
        · exfalso
          have hji : j - i = 0 := by omega
          rw [hji] at h2
          simp at h2
          exact hk h2
        · refine ⟨by omega, ?_⟩
          have hji : j - i = (j - (i + 1)) + 1 := by omega
          rw [hji] at h2
          simpa using h2

theorem occsFrom_pairwise (nm a : String) :
    ∀ (trace : Trace) (i : Nat), (occsFrom nm a trace i).Pairwise (· < ·)
  | [], i => by simp [occsFrom]
  | e :: rest, i => by
    by_cases hk : evGet e nm = a
    · simp only [occsFrom, if_pos hk]
      refine List.pairwise_cons.mpr ⟨?_, occsFrom_pairwise nm a rest (i + 1)⟩
      intro j hj
      have := ((mem_occsFrom nm a rest (i + 1) j).mp hj).1
      omega
    · simp only [occsFrom, if_neg hk]
      exact occsFrom_pairwise nm a rest (i + 1)

/-- C8: the reverse index maps each activity name occurring in the trace to the
strictly ascending list of exactly the positions at which it occurs (position
`j` means the event `trace[j]` has name `a`), and names not occurring in the
trace are absent from the mapping (`none`), not mapped to an empty list. -/
theorem c8_reverse_index (trace : Trace) (nm a : String) :
    lookupIdx (create_trace_reverse_index trace nm) a =
        (if occsFrom nm a trace 0 = [] then none else some (occsFrom nm a trace 0)) ∧
      (occsFrom nm a trace 0).Pairwise (· < ·) ∧
      ∀ j : Nat, j ∈ occsFrom nm a trace 0 ↔
        (trace.get? j).map (fun e => evGet e nm) = some a := by
  refine ⟨lookupIdx_create trace nm a, occsFrom_pairwise nm a trace 0, ?_⟩
  intro j
  rw [mem_occsFrom]
  simp

/-- C3: on the reverse index of a trace, Response(a,b) is 1 (vacuous) when `a`
never occurs, 0 when `a` occurs but `b` does not, and otherwise 2 exactly when
the last position of `b` exceeds the last position of `a`, else 0; Precedence(a,b)
is 1 when `b` never occurs, 0 when `b` occurs but `a` does not, and otherwise 2
exactly when the first position of `a` precedes the first position of `b`, else 0. -/
theorem c3_response_precedence_first_last (trace : Trace) (nm a b : String) :
    check_response_constraint (create_trace_reverse_index trace nm) a b =
        (if occsFrom nm a trace 0 = [] then 1
         else if occsFrom nm b trace 0 = [] then 0
         else if (occsFrom nm a trace 0).getLastD 0 < (occsFrom nm b trace 0).getLastD 0 then 2
         else 0) ∧
      check_precedence_constraint (create_trace_reverse_index trace nm) a b =
        (if occsFrom nm b trace 0 = [] then 1
         else if occsFrom nm a trace 0 = [] then 0
         else if (occsFrom nm a trace 0).headD 0 < (occsFrom nm b trace 0).headD 0 then 2
         else 0) := by
  have hla := lookupIdx_create trace nm a
  have hlb := lookupIdx_create trace nm b
  constructor
  · by_cases h1 : occsFrom nm a trace 0 = []
    · simp only [h1, if_pos rfl] at hla ⊢
      simp [check_response_constraint, hla]
    · by_cases h2 : occsFrom nm b trace 0 = []
      · simp only [if_neg h1, if_pos h2] at hla hlb ⊢
        simp [check_response_constraint, hla, hlb, h2]
      · simp only [if_neg h1, if_neg h2] at hla hlb ⊢
        simp [check_response_constraint, hla, hlb]
  · by_cases h2 : occsFrom nm b trace 0 = []
    · simp only [h2, if_pos rfl] at hlb ⊢
      simp [check_precedence_constraint, hlb]
    · by_cases h1 : occsFrom nm a trace 0 = []
      · simp only [if_neg h2, if_pos h1] at hla hlb ⊢
        simp [check_precedence_constraint, hla, hlb, h1]
      · simp only [if_neg h1, if_neg h2] at hla hlb ⊢
        simp [check_precedence_constraint, hla, hlb]

/-- C1: the window search of `check_sequence_nonstrict_order` iterates window
starts `0 ≤ i < len - m` only, so the matching window that ends at the last
event of the trace is never tested: on the two-event trace `[A, B]` with
pattern `[A, B]` and count 1, the whole trace is a matching window (its name
multiset equals the pattern's), yet the function returns 0 (Unsatisfiable). -/
theorem c1_nonstrict_order_misses_final_window :
    check_sequence_nonstrict_order [mkEv "A", mkEv "B"] ["A", "B"] 1 "concept:name" = 0 ∧
      (((([mkEv "A", mkEv "B"] : Trace).map (fun e => evGet e "concept:name")).drop 0).take 2).isPerm
        ["A", "B"] = true ∧
      foundIndices [mkEv "A", mkEv "B"] ["A", "B"] "concept:name" = [] := by
  decide

/-- C2 counterexample: the claim "Satisfied iff the pattern occurs as a
contiguous run at least `count` times, counting overlapping occurrences" fails
in both directions.  Python's `str.count` is non-overlapping, so `[A, A]`
(2 overlapping run occurrences in `[A, A, A]`) yields 0 with count 2; and the
joined-string search matches inside longer names, so pattern `[A]` is reported
Satisfied on the single-event trace `[AB]` although the run never occurs. -/
theorem c2_counterexample_overlap_and_boundary :
    ¬ (check_sequence_strict_order [mkEv "A", mkEv "A", mkEv "A"] ["A", "A"] 2 "concept:name" = 2 ↔
        2 ≤ overlapRunCount ["A", "A", "A"] ["A", "A"]) ∧
      ¬ (check_sequence_strict_order [mkEv "AB"] ["A"] 1 "concept:name" = 2 ↔
        1 ≤ overlapRunCount ["AB"] ["A"]) := by
  decide

/-- C4 counterexample: empty configurations are not rejected with any error;
the checkers silently return ordinary default verdicts — an empty
rule-attribute map yields Satisfied (2) and an empty pattern yields
Unsatisfiable (0) from the strict interleaved matcher. -/
theorem c4_counterexample_no_config_error :
    check_trace_attribute ⟨[], []⟩ [] = 2 ∧
      check_sequence_strict_order_interleaved [mkEv "A"] [] 1 = 0 ∧
      check_sequence_nonstrict_order [mkEv "A"] [] 1 "concept:name" = 2 := by
  decide

/-! ### Greedy substring-count lemmas (the scan behind Python `str.count`) -/

theorem isPrefixOf_iff_exists {α : Type} [BEq α] [LawfulBEq α] :
    ∀ (p s : List α), p.isPrefixOf s = true ↔ ∃ t, s = p ++ t
  | [], s => by simp [List.isPrefixOf]
  | a :: p, [] => by simp [List.isPrefixOf]
  | a :: p, b :: s => by
    simp only [List.isPrefixOf, Bool.and_eq_true, beq_iff_eq]
    rw [isPrefixOf_iff_exists p s]
    constructor
    · rintro ⟨rfl, t, rfl⟩
      exact ⟨t, rfl⟩
    · rintro ⟨t, ht⟩
      simp only [List.cons_append, List.cons.injEq] at ht
      exact ⟨ht.1.symm, t, ht.2⟩

theorem greedyCountGo_skip {α : Type} [BEq α] (pat : List α) :
    ∀ (s : List α) (k : Nat), greedyCountGo pat s k = greedyCountGo pat (s.drop k) 0
  | [], k => by simp [greedyCountGo]
  | c :: t, 0 => by simp
  | c :: t, k + 1 => by
    simp only [greedyCountGo, List.drop_succ_cons]
    rw [if_pos (Nat.succ_pos k)]
    simpa using greedyCountGo_skip pat t k

theorem greedyCountGo_cons_pos {α : Type} [BEq α] (pat : List α) (hp : pat ≠ []) (c : α)
    (t : List α) (h : pat.isPrefixOf (c :: t) = true) :
    greedyCountGo pat (c :: t) 0 = 1 + greedyCountGo pat ((c :: t).drop pat.length) 0 := by
  have hL : pat.length - 1 + 1 = pat.length := by
    cases pat with
    | nil => exact absurd rfl hp
    | cons a p => simp
  have hdrop : (c :: t).drop pat.length = t.drop (pat.length - 1) := by
    cases pat with
    | nil => exact absurd rfl hp
    | cons a p => simp
  simp only [greedyCountGo]
  rw [if_neg (by omega : ¬ 0 < 0), if_pos h, greedyCountGo_skip, hdrop]

theorem greedyCountGo_cons_neg {α : Type} [BEq α] (pat : List α) (c : α) (t : List α)
    (h : ¬ pat.isPrefixOf (c :: t) = true) :
    greedyCountGo pat (c :: t) 0 = greedyCountGo pat t 0 := by
  simp only [greedyCountGo]
  rw [if_neg (by omega : ¬ 0 < 0), if_neg h]

theorem occursIn_length_le {α : Type} (pat s : List α) (h : occursIn pat s) :
    pat.length ≤ s.length := by
  obtain ⟨u, v, rfl⟩ := h
  simp [List.length_append]
  omega

theorem occursIn_tail {α : Type} [BEq α] [LawfulBEq α] (pat : List α) (c : α) (t : List α)
    (hocc : occursIn pat (c :: t)) (h : ¬ pat.isPrefixOf (c :: t) = true) : occursIn pat t := by
  obtain ⟨u, v, huv⟩ := hocc
  cases u with
  | nil =>
    exfalso
    apply h
    rw [isPrefixOf_iff_exists]
    exact ⟨v, by simpa using huv⟩
  | cons x u' =>
    simp only [List.cons_append, List.cons.injEq] at huv
    exact ⟨u', v, huv.2⟩

theorem one_le_greedyCountGo {α : Type} [BEq α] [LawfulBEq α] (pat : List α) (hp : pat ≠ []) :
    ∀ (n : Nat) (s : List α), s.length ≤ n → occursIn pat s → 1 ≤ greedyCountGo pat s 0
  | n, [], _, hocc => by
    obtain ⟨u, v, huv⟩ := hocc
    exact absurd huv.symm (by simp [hp])
  | 0, c :: t, hn, _ => by simp at hn
  | n + 1, c :: t, hn, hocc => by
    by_cases h : pat.isPrefixOf (c :: t) = true
    · rw [greedyCountGo_cons_pos pat hp c t h]
      omega
    · rw [greedyCountGo_cons_neg pat c t h]
      exact one_le_greedyCountGo pat hp n t (by simpa using hn) (occursIn_tail pat c t hocc h)

theorem occursIn_of_one_le {α : Type} [BEq α] [LawfulBEq α] (pat : List α) :
    ∀ (n : Nat) (s : List α), s.length ≤ n → 1 ≤ greedyCountGo pat s 0 → occursIn pat s
  | _, [], _, hc => by simp [greedyCountGo] at hc
  | 0, c :: t, hn, _ => by simp at hn
  | n + 1, c :: t, hn, hc => by
    by_cases h : pat.isPrefixOf (c :: t) = true
    · obtain ⟨t', ht'⟩ := (isPrefixOf_iff_exists pat (c :: t)).mp h
      exact ⟨[], t', by simpa using ht'⟩
    · rw [greedyCountGo_cons_neg pat c t h] at hc
      obtain ⟨u, v, huv⟩ := occursIn_of_one_le pat n t (by simpa using hn) hc
      exact ⟨c :: u, v, by simp [huv]⟩

theorem two_le_greedyCountGo {α : Type} [BEq α] [LawfulBEq α] (pat : List α) (hp : pat ≠ []) :
    ∀ (n : Nat) (u v : List α), u.length ≤ n → occursIn pat u → occursIn pat v →
      2 ≤ greedyCountGo pat (u ++ v) 0
  | n, [], v, _, hu, _ => by
    obtain ⟨x, y, hxy⟩ := hu
    exact absurd hxy.symm (by simp [hp])
  | 0, c :: t, v, hn, _, _ => by simp at hn
  | n + 1, c :: t, v, hn, hu, hv => by
    rw [List.cons_append]
    by_cases h : pat.isPrefixOf (c :: (t ++ v)) = true
    · rw [greedyCountGo_cons_pos pat hp c (t ++ v) h]
      have hLu : pat.length ≤ (c :: t).length := occursIn_length_le pat (c :: t) hu
      have hdrop : (c :: (t ++ v)).drop pat.length = ((c :: t).drop pat.length) ++ v := by
        rw [← List.cons_append, List.drop_append_eq_append_drop]
        have : pat.length - (c :: t).length = 0 := by omega
        rw [this, List.drop_zero]
      rw [hdrop]
      obtain ⟨x, y, hxy⟩ := hv
      have hocc : occursIn pat (((c :: t).drop pat.length) ++ v) :=
        ⟨(c :: t).drop pat.length ++ x, y, by simp [hxy, List.append_assoc]⟩
      have := one_le_greedyCountGo pat hp (((c :: t).drop pat.length) ++ v).length
        (((c :: t).drop pat.length) ++ v) (Nat.le_refl _) hocc
      omega
    · rw [greedyCountGo_cons_neg pat c (t ++ v) h]
      have hpre : ¬ pat.isPrefixOf (c :: t) = true := by
        intro hc
        apply h
        obtain ⟨w, hw⟩ := (isPrefixOf_iff_exists pat (c :: t)).mp hc
        rw [isPrefixOf_iff_exists]
        exact ⟨w ++ v, by rw [← List.append_assoc, ← hw, List.cons_append]⟩
      exact two_le_greedyCountGo pat hp n t v (by simpa using hn)
        (occursIn_tail pat c t hu hpre) hv

/-! ### Intercalate lemmas -/

theorem intercalate_cons_of_ne_nil {α : Type} (sep : List α) (a : List α) (B : List (List α))
    (hB : B ≠ []) :
    List.intercalate sep (a :: B) = a ++ sep ++ List.intercalate sep B := by
  cases B with
  | nil => exact absurd rfl hB
  | cons b t =>
    simp [List.intercalate, List.intersperse_cons_cons, List.append_assoc]

theorem intercalate_append_of_ne_nil {α : Type} (sep : List α) :
    ∀ (A B : List (List α)), A ≠ [] → B ≠ [] →
      List.intercalate sep (A ++ B) = List.intercalate sep A ++ sep ++ List.intercalate sep B
  | [], _, hA, _ => absurd rfl hA
  | [a], B, _, hB => by
    rw [List.singleton_append, intercalate_cons_of_ne_nil sep a B hB]
    simp [List.intercalate]
  | a :: a2 :: A, B, _, hB => by
    have h1 : (a2 :: A) ++ B ≠ [] := by simp
    have h2 : a2 :: A ≠ [] := by simp
    rw [List.cons_append, intercalate_cons_of_ne_nil sep a ((a2 :: A) ++ B) h1,
      intercalate_append_of_ne_nil sep (a2 :: A) B h2 hB,
      intercalate_cons_of_ne_nil sep a (a2 :: A) h2]
    simp [List.append_assoc]

theorem length_le_length_intercalate {α : Type} (sep : List α) (hsep : 1 ≤ sep.length) :
    ∀ (A : List (List α)), A.length ≤ (List.intercalate sep A).length + 1
  | [] => by simp
  | [a] => by simp [List.intercalate]
  | a :: a2 :: A => by
    have h2 : a2 :: A ≠ [] := by simp
    rw [intercalate_cons_of_ne_nil sep a (a2 :: A) h2]
    have := length_le_length_intercalate sep hsep (a2 :: A)
    simp only [List.length_cons, List.length_append] at *
    omega

/-- C7: if the strict contiguous matcher is Satisfied for `count = 1` on a
trace, then it is Satisfied for `count = 2` on the trace concatenated with
itself: the occurrence found in the single trace yields two non-overlapping
occurrences of the joined pattern string in the doubled joined string. -/
theorem c7_strict_order_doubling (T : Trace) (pat : List String) (nm : String)
    (hpat : pat ≠ []) (h : check_sequence_strict_order T pat 1 nm = 2) :
    check_sequence_strict_order (T ++ T) pat 2 nm = 2 := by
  simp only [check_sequence_strict_order] at h ⊢
  by_cases hg : T.length < 1
  · rw [if_pos hg] at h
    exact absurd h (by omega)
  rw [if_neg hg] at h
  have hT1 : 1 ≤ T.length := by omega
  have hA : (T ++ T).map (fun e => (evGet e nm).data) =
      (T.map fun e => (evGet e nm).data) ++ (T.map fun e => (evGet e nm).data) :=
    List.map_append _ T T
  have hAne : (T.map fun e => (evGet e nm).data) ≠ [] := by
    intro hc
    have := congrArg List.length hc
    simp only [List.length_map, List.length_nil] at this
    omega
  have hsplit : List.intercalate [hackDelim] ((T ++ T).map fun e => (evGet e nm).data) =
      List.intercalate [hackDelim] (T.map fun e => (evGet e nm).data) ++ [hackDelim] ++
        List.intercalate [hackDelim] (T.map fun e => (evGet e nm).data) := by
    rw [hA, intercalate_append_of_ne_nil [hackDelim] _ _ hAne hAne]
  rw [if_neg (by simp only [List.length_append]; omega : ¬ (T ++ T).length < 2)]
  rw [hsplit]
  set sT := List.intercalate [hackDelim] (T.map fun e => (evGet e nm).data) with hsT
  set sP := List.intercalate [hackDelim] (pat.map String.data) with hsP
  by_cases hPnil : sP = []
  · rw [hPnil]
    simp only [pyCount, List.isEmpty_nil, if_true]
    rw [if_pos (by simp only [List.length_append, List.length_cons, List.length_nil]; omega)]
  · have hPe : sP.isEmpty = false := by
      cases hc : sP with
      | nil => exact absurd hc hPnil
      | cons x xs => simp [hc]
    simp only [pyCount, hPe, Bool.false_eq_true, if_false] at h ⊢
    by_cases hc1 : 1 ≤ greedyCountGo sP sT 0
    · have hocc : occursIn sP sT :=
        occursIn_of_one_le sP sT.length sT (Nat.le_refl _) hc1
      have hocc1 : occursIn sP (sT ++ [hackDelim]) := by
        obtain ⟨x, y, hxy⟩ := hocc
        exact ⟨x, y ++ [hackDelim], by simp [hxy, List.append_assoc]⟩
      have h2 := two_le_greedyCountGo sP hPnil (sT ++ [hackDelim]).length
        (sT ++ [hackDelim]) sT (Nat.le_refl _) hocc1 hocc
      rw [List.append_assoc] at h2
      rw [if_pos (by simpa [List.append_assoc] using h2)]
    · rw [if_neg (by omega)] at h
      exact absurd h (by omega)

theorem c7_strict_order_doubling_witness :
    check_sequence_strict_order ([mkEv "A"] ++ [mkEv "A"]) ["A"] 2 "concept:name" = 2 :=
  c7_strict_order_doubling [mkEv "A"] ["A"] "concept:name" (by decide) (by decide)

/-! ### Greedy non-overlap selection lemmas -/

theorem range_succ_eq (n : Nat) : List.range (n + 1) = List.range n ++ [n] := by
  simpa using List.range_succ n

theorem greedyGo_mem_ge (m : Nat) :
    ∀ (l : List Nat) (nmin x : Nat), x ∈ greedyGo m nmin l → nmin ≤ x
  | [], nmin, x => by simp [greedyGo]
  | i :: rest, nmin, x => by
    by_cases h : nmin ≤ i
    · simp only [greedyGo, if_pos h, List.mem_cons]
      rintro (rfl | hx)
      · exact h
      · have := greedyGo_mem_ge m rest (i + m) x hx
        omega
    · simp only [greedyGo, if_neg h]
      exact greedyGo_mem_ge m rest nmin x

theorem greedyGo_chain (m : Nat) :
    ∀ (l : List Nat) (nmin : Nat), List.Chain' (fun a b => a + m ≤ b) (greedyGo m nmin l)
  | [], nmin => by simp [greedyGo]
  | i :: rest, nmin => by
    by_cases h : nmin ≤ i
    · simp only [greedyGo, if_pos h]
      refine List.chain'_cons'.mpr ⟨?_, greedyGo_chain m rest (i + m)⟩
      intro b hb
      exact greedyGo_mem_ge m rest (i + m) b (List.mem_of_mem_head? hb)
    · simp only [greedyGo, if_neg h]
      exact greedyGo_chain m rest nmin

theorem greedyGo_length_append (m : Nat) :
    ∀ (l ex : List Nat) (nmin : Nat),
      (greedyGo m nmin l).length ≤ (greedyGo m nmin (l ++ ex)).length
  | [], ex, nmin => by
    simp only [greedyGo, List.nil_append, List.length_nil]
    exact Nat.zero_le _
  | i :: rest, ex, nmin => by
    by_cases h : nmin ≤ i
    · simp only [List.cons_append, greedyGo, if_pos h, List.length_cons]
      exact Nat.succ_le_succ (greedyGo_length_append m rest ex (i + m))
    · simp only [List.cons_append, greedyGo, if_neg h]
      exact greedyGo_length_append m rest ex nmin

theorem allMatching_split (trace : Trace) (sequence : List String) (nm : String) :
    allMatchingIndices trace sequence nm =
      foundIndices trace sequence nm ++
        ([(trace.map fun e => evGet e nm).length - sequence.length].filter
          (fun i => (((trace.map fun e => evGet e nm).drop i).take sequence.length).isPerm
            sequence)) := by
  simp only [allMatchingIndices, foundIndices]
  rw [range_succ_eq, List.filter_append]

/-- C5: the windows selected by the greedy filter of the non-strict permutation
matcher never overlap — consecutive selected starting indices differ by at
least the pattern length — and the number of selected windows never exceeds
the number selected by the same earliest-first left-to-right greedy policy run
over all matching windows of the trace (including the final window the search
loop never visits). -/
theorem c5_nonstrict_greedy_invariant (trace : Trace) (sequence : List String) (count : Nat)
    (nm : String) (hseq : sequence ≠ []) (hcount : 1 ≤ count) :
    List.Chain' (fun a b => a + sequence.length ≤ b)
        (greedyFilter sequence.length (foundIndices trace sequence nm)) ∧
      (greedyFilter sequence.length (foundIndices trace sequence nm)).length ≤
        (greedyFilter sequence.length (allMatchingIndices trace sequence nm)).length := by
  constructor
  · cases hf : foundIndices trace sequence nm with
    | nil => simp [greedyFilter]
    | cons i0 rest =>
      simp only [greedyFilter]
      refine List.chain'_cons'.mpr
        ⟨?_, greedyGo_chain sequence.length rest (i0 + sequence.length)⟩
      intro b hb
      exact greedyGo_mem_ge sequence.length rest (i0 + sequence.length) b
        (List.mem_of_mem_head? hb)
  · rw [allMatching_split trace sequence nm]
    cases hf : foundIndices trace sequence nm with
    | nil =>
      simp only [greedyFilter, List.length_nil]
      exact Nat.zero_le _
    | cons i0 rest =>
      rw [List.cons_append]
      simp only [greedyFilter, List.length_cons]
      exact Nat.succ_le_succ (greedyGo_length_append sequence.length rest _
        (i0 + sequence.length))

theorem c5_nonstrict_greedy_invariant_witness :
    List.Chain' (fun a b => a + (["A"] : List String).length ≤ b)
        (greedyFilter (["A"] : List String).length
          (foundIndices [mkEv "A", mkEv "B"] ["A"] "concept:name")) ∧
      (greedyFilter (["A"] : List String).length
          (foundIndices [mkEv "A", mkEv "B"] ["A"] "concept:name")).length ≤
        (greedyFilter (["A"] : List String).length
          (allMatchingIndices [mkEv "A", mkEv "B"] ["A"] "concept:name")).length :=
  c5_nonstrict_greedy_invariant [mkEv "A", mkEv "B"] ["A"] 1 "concept:name"
    (by decide) (by decide)

/-! ### Empty-pattern lemmas -/

theorem strictIntGo_nil_seq : ∀ (evs : Trace) (cs : List String) (cnt : Nat),
    strictIntGo [] evs cs cnt = cnt
  | [], _, _ => rfl
  | e :: rest, cs, cnt => by
    simp only [strictIntGo]
    rw [if_neg (List.not_mem_nil _)]
    exact strictIntGo_nil_seq rest cs cnt

theorem nonstrictIntGo_nil_seq : ∀ (evs : Trace) (cs : List String) (cnt : Nat),
    nonstrictIntGo [] evs cs cnt = cnt
  | [], _, _ => rfl
  | e :: rest, cs, cnt => by
    simp only [nonstrictIntGo]
    rw [if_neg (List.not_mem_nil _)]
    exact nonstrictIntGo_nil_seq rest cs cnt

theorem foundIndices_nil_seq (trace : Trace) (nm : String) :
    foundIndices trace [] nm = List.range trace.length := by
  simp [foundIndices, List.isPerm]

theorem greedyGo_zero : ∀ (l : List Nat) (nmin : Nat),
    l.Pairwise (· ≤ ·) → (∀ x ∈ l, nmin ≤ x) → greedyGo 0 nmin l = l
  | [], _, _, _ => rfl
  | i :: rest, nmin, hp, hge => by
    have h1 : nmin ≤ i := hge i (List.mem_cons_self i rest)
    simp only [greedyGo, if_pos h1, Nat.add_zero]
    congr 1
    exact greedyGo_zero rest i (List.pairwise_cons.mp hp).2
      (fun x hx => (List.pairwise_cons.mp hp).1 x hx)

theorem range_succ_cons (n : Nat) : List.range (n + 1) = 0 :: (List.range n).map Nat.succ := by
  simpa using List.range_succ_eq_map n

theorem greedyFilter_zero_range : ∀ (n : Nat), greedyFilter 0 (List.range n) = List.range n
  | 0 => rfl
  | n + 1 => by
    rw [range_succ_cons]
    simp only [greedyFilter, Nat.add_zero]
    congr 1
    apply greedyGo_zero
    · have h2 : (List.range n).Pairwise (· < ·) := List.pairwise_lt_range n
      have h3 : ((List.range n).map Nat.succ).Pairwise (· < ·) :=
        List.pairwise_map.mpr (h2.imp (by intro a b hab; omega))
      exact h3.imp (by intro a b hab; omega)
    · intro x hx
      exact Nat.zero_le x

theorem strict_interleaved_empty (trace : Trace) (count : Nat) (hcount : 1 ≤ count) :
    check_sequence_strict_order_interleaved trace [] count = 0 := by
  simp only [check_sequence_strict_order_interleaved, strictIntGo_nil_seq]
  rw [if_neg (by omega)]

theorem nonstrict_interleaved_empty (trace : Trace) (count : Nat) (hcount : 1 ≤ count) :
    check_sequence_nonstrict_order_interleaved trace [] count = 0 := by
  simp only [check_sequence_nonstrict_order_interleaved, nonstrictIntGo_nil_seq]
  rw [if_neg (by omega)]

theorem strict_order_empty (trace : Trace) (count : Nat) (nm : String) (hcount : 1 ≤ count) :
    check_sequence_strict_order trace [] count nm = (if count ≤ trace.length then 2 else 0) := by
  simp only [check_sequence_strict_order]
  by_cases hg : trace.length < count
  · rw [if_pos hg, if_neg (by omega)]
  · rw [if_neg hg, if_pos (by omega : count ≤ trace.length)]
    have hP : List.intercalate [hackDelim] (([] : List String).map String.data) = [] := rfl
    rw [hP]
    simp only [pyCount, List.isEmpty_nil, if_true]
    rw [if_pos ?_]
    have hlen := length_le_length_intercalate [hackDelim] (by simp)
      (trace.map fun e => (evGet e nm).data)
    simp only [List.length_map] at hlen
    omega

theorem nonstrict_order_empty (trace : Trace) (count : Nat) (nm : String) (hcount : 1 ≤ count) :
    check_sequence_nonstrict_order trace [] count nm =
      (if count ≤ trace.length then 2 else 0) := by
  simp only [check_sequence_nonstrict_order]
  by_cases hg : trace.length < count
  · rw [if_pos hg, if_neg (by omega)]
  · rw [if_neg hg, if_pos (by omega : count ≤ trace.length), foundIndices_nil_seq]
    rw [if_neg (by simp only [List.length_range]; omega)]
    simp only [List.length_nil, greedyFilter_zero_range, List.length_range]
    rw [if_pos (by omega)]

/-- C10: on the empty pattern the four sequence matchers diverge, for every
count at least 1: both interleaved matchers return 0 on every trace (no event
name belongs to the empty activity set, so no occurrence is ever completed),
while the strict contiguous matcher and the non-strict permutation matcher
return 2 exactly when the trace has at least `count` events, else 0. -/
theorem c10_empty_pattern_divergence (trace : Trace) (count : Nat) (nm : String)
    (hcount : 1 ≤ count) :
    check_sequence_strict_order_interleaved trace [] count = 0 ∧
      check_sequence_nonstrict_order_interleaved trace [] count = 0 ∧
      check_sequence_strict_order trace [] count nm = (if count ≤ trace.length then 2 else 0) ∧
      check_sequence_nonstrict_order trace [] count nm =
        (if count ≤ trace.length then 2 else 0) :=
  ⟨strict_interleaved_empty trace count hcount, nonstrict_interleaved_empty trace count hcount,
    strict_order_empty trace count nm hcount, nonstrict_order_empty trace count nm hcount⟩

theorem c10_empty_pattern_divergence_witness :
    check_sequence_strict_order_interleaved [mkEv "A"] [] 1 = 0 ∧
      check_sequence_nonstrict_order_interleaved [mkEv "A"] [] 1 = 0 ∧
      check_sequence_strict_order [mkEv "A"] [] 1 "concept:name" =
        (if 1 ≤ ([mkEv "A"] : Trace).length then 2 else 0) ∧
      check_sequence_nonstrict_order [mkEv "A"] [] 1 "concept:name" =
        (if 1 ≤ ([mkEv "A"] : Trace).length then 2 else 0) :=
  c10_empty_pattern_divergence [mkEv "A"] 1 "concept:name" (by decide)

/-- C4 (amended): empty configurations are not rejected with a distinguishable
configuration error; the checkers silently return ordinary default verdicts.
With an empty pattern the strict interleaved matcher returns Unsatisfiable (0)
on every trace, the non-strict permutation matcher returns its normal verdict
(2 when the trace has at least `count` events, else 0), and with an empty
rule-attribute map the trace-attribute checker returns Satisfied (2). -/
theorem c4_empty_config_default_verdicts (trace : Trace) (tr : TraceWithAttrs) (count : Nat)
    (hcount : 1 ≤ count) :
    check_sequence_strict_order_interleaved trace [] count = 0 ∧
      check_sequence_nonstrict_order trace [] count "concept:name" =
        (if count ≤ trace.length then 2 else 0) ∧
      check_trace_attribute tr [] = 2 :=
  ⟨strict_interleaved_empty trace count hcount,
    nonstrict_order_empty trace count "concept:name" hcount, rfl⟩

theorem c4_empty_config_default_verdicts_witness :
    check_sequence_strict_order_interleaved [mkEv "A"] [] 1 = 0 ∧
      check_sequence_nonstrict_order [mkEv "A"] [] 1 "concept:name" =
        (if 1 ≤ ([mkEv "A"] : Trace).length then 2 else 0) ∧
      check_trace_attribute ⟨[mkEv "A"], [("x", "1")]⟩ [] = 2 :=
  c4_empty_config_default_verdicts [mkEv "A"] ⟨[mkEv "A"], [("x", "1")]⟩ 1 (by decide)

/-! ### Event-attribute collection lemmas -/

theorem lookupS_cons (k v : String) (rest : List (String × String)) (a : String) :
    lookupS ((k, v) :: rest) a = if k = a then some v else lookupS rest a := by
  by_cases h : k = a
  · simp [lookupS, List.find?_cons_of_pos, h]
  · simp only [lookupS]
    rw [List.find?_cons_of_neg]
    · simp [h]
    · simp [h]

theorem lookupS_append_some (m2 : List (String × String)) :
    ∀ (m1 : List (String × String)) (k v : String),
      lookupS m1 k = some v → lookupS (m1 ++ m2) k = some v
  | [], k, v => by
    intro h
    exact absurd h (by simp [lookupS])
  | (k', v') :: rest, k, v => by
    intro h
    rw [lookupS_cons] at h
    rw [List.cons_append, lookupS_cons]
    by_cases hk : k' = k
    · rw [if_pos hk] at h ⊢
      exact h
    · rw [if_neg hk] at h ⊢
      exact lookupS_append_some m2 rest k v h

theorem lookupS_append_none (m2 : List (String × String)) :
    ∀ (m1 : List (String × String)) (k : String),
      lookupS m1 k = none → lookupS (m1 ++ m2) k = lookupS m2 k
  | [], k => by
    intro _
    rfl
  | (k', v') :: rest, k => by
    intro h
    rw [lookupS_cons] at h
    rw [List.cons_append, lookupS_cons]
    by_cases hk : k' = k
    · rw [if_pos hk] at h
      exact absurd h (by simp)
    · rw [if_neg hk] at h ⊢
      exact lookupS_append_none m2 rest k h

theorem evFind_eq_of_evHas (e : Event) (k : String) (he : evHas e k = true) :
    evFind e k = some (evGet e k) := by
  cases hf : evFind e k with
  | none => exact absurd he (by simp [evHas, hf])
  | some v => simp [evGet, hf]

theorem evFind_eq_none_of_not_evHas (e : Event) (k : String) (he : ¬ evHas e k = true) :
    evFind e k = none := by
  cases hf : evFind e k with
  | none => rfl
  | some v => exact absurd (by simp [evHas, hf]) he

theorem foldIns_some (e : Event) :
    ∀ (ks : List String) (acc : List (String × String)) (k v : String),
      lookupS acc k = some v → lookupS (ks.foldl (insAttr e) acc) k = some v
  | [], _, _, _ => fun h => h
  | k2 :: ks, acc, k, v => by
    intro h
    simp only [List.foldl_cons, insAttr]
    by_cases hc : evHas e k2 ∧ lookupS acc k2 = none
    · rw [if_pos hc]
      exact foldIns_some e ks _ k v (lookupS_append_some _ acc k v h)
    · rw [if_neg hc]
      exact foldIns_some e ks acc k v h

theorem foldIns_none_notMem (e : Event) :
    ∀ (ks : List String) (acc : List (String × String)) (k : String),
      lookupS acc k = none → ¬ k ∈ ks → lookupS (ks.foldl (insAttr e) acc) k = none
  | [], _, _ => fun h _ => h
  | k2 :: ks, acc, k => by
    intro h hk
    have hk2 : ¬ k2 = k := by
      intro hh
      exact hk (by rw [← hh] at *; exact List.mem_cons_self k2 ks)
    have hk' : ¬ k ∈ ks := fun hm => hk (List.mem_cons_of_mem _ hm)
    simp only [List.foldl_cons, insAttr]
    by_cases hc : evHas e k2 ∧ lookupS acc k2 = none
    · rw [if_pos hc]
      apply foldIns_none_notMem e ks _ k _ hk'
      rw [lookupS_append_none _ acc k h, lookupS_cons, if_neg hk2]
      rfl
    · rw [if_neg hc]
      exact foldIns_none_notMem e ks acc k h hk'

theorem foldIns_none_mem (e : Event) :
    ∀ (ks : List String) (acc : List (String × String)) (k : String),
      lookupS acc k = none → k ∈ ks → lookupS (ks.foldl (insAttr e) acc) k = evFind e k
  | [], _, k => by
    intro _ hk
    exact absurd hk (List.not_mem_nil k)
  | k2 :: ks, acc, k => by
    intro h hk
    simp only [List.foldl_cons, insAttr]
    by_cases hkk : k2 = k
    · subst hkk
      by_cases he : evHas e k2 = true
      · rw [if_pos ⟨he, h⟩]
        have hlook : lookupS (acc ++ [(k2, evGet e k2)]) k2 = some (evGet e k2) := by
          rw [lookupS_append_none _ acc k2 h, lookupS_cons, if_pos rfl]
        rw [foldIns_some e ks _ k2 (evGet e k2) hlook, evFind_eq_of_evHas e k2 he]
      · rw [if_neg (fun hc => he hc.1)]
        by_cases hmem : k2 ∈ ks
        · exact foldIns_none_mem e ks acc k2 h hmem
        · rw [foldIns_none_notMem e ks acc k2 h hmem, evFind_eq_none_of_not_evHas e k2 he]
    · have hk' : k ∈ ks := by
        rcases List.mem_cons.mp hk with hh | hh
        · exact absurd hh.symm hkk
        · exact hh
      by_cases hc : evHas e k2 ∧ lookupS acc k2 = none
      · rw [if_pos hc]
        apply foldIns_none_mem e ks _ k _ hk'
        rw [lookupS_append_none _ acc k h, lookupS_cons, if_neg hkk]
        rfl
      · rw [if_neg hc]
        exact foldIns_none_mem e ks acc k h hk'

theorem collect_lookup_some (ks : List String) :
    ∀ (trace : Trace) (acc : List (String × String)) (k v : String),
      lookupS acc k = some v → lookupS (collectEventAttrs ks trace acc) k = some v
  | [], _, _, _ => fun h => h
  | e :: rest, acc, k, v => by
    intro h
    simp only [collectEventAttrs]
    exact collect_lookup_some ks rest _ k v (foldIns_some e ks acc k v h)

theorem collect_lookup_none (ks : List String) :
    ∀ (trace : Trace) (acc : List (String × String)) (k : String),
      lookupS acc k = none → k ∈ ks →
      lookupS (collectEventAttrs ks trace acc) k = recordedVal trace k
  | [], acc, k => by
    intro h _
    simp only [collectEventAttrs, recordedVal, List.findSome?_nil]
    exact h
  | e :: rest, acc, k => by
    intro h hk
    simp only [collectEventAttrs]
    cases hf : evFind e k with
    | some v =>
      have hstep := foldIns_none_mem e ks acc k h hk
      rw [hf] at hstep
      rw [collect_lookup_some ks rest _ k v hstep]
      simp [recordedVal, List.findSome?_cons, hf]
    | none =>
      have hstep := foldIns_none_mem e ks acc k h hk
      rw [hf] at hstep
      rw [collect_lookup_none ks rest _ k hstep hk]
      simp [recordedVal, List.findSome?_cons, hf]

theorem attrLoop_eq (ea : List (String × String)) :
    ∀ (pairs : List (String × String)) (total matched : Nat),
      attrLoop ea total pairs matched =
        if (∀ p ∈ pairs, lookupS ea p.1 = some p.2) ∧ matched + pairs.length = total then 2
        else 0
  | [], total, matched => by
    simp [attrLoop]
  | (k, v) :: rest, total, matched => by
    by_cases h : lookupS ea k = some v
    · simp only [attrLoop, if_pos h]
      rw [attrLoop_eq ea rest total (matched + 1)]
      apply if_congr ?_ rfl rfl
      constructor
      · rintro ⟨hr, hm⟩
        refine ⟨?_, by simp only [List.length_cons]; omega⟩
        intro p hp
        rcases List.mem_cons.mp hp with rfl | hp'
        · exact h
        · exact hr p hp'
      · rintro ⟨hall, hm⟩
        refine ⟨fun p hp => hall p (List.mem_cons_of_mem _ hp), ?_⟩
        simp only [List.length_cons] at hm
        omega
    · simp only [attrLoop, if_neg h]
      rw [if_neg ?_]
      rintro ⟨hall, _⟩
      exact h (hall (k, v) (List.mem_cons_self _ _))

/-- C9: the event-attribute checker records, for each requested key, the value
carried by the first event in trace order that carries it (later events cannot
overwrite an already-recorded key), and returns Satisfied exactly when every
requested key is recorded with a value equal to the expected one, else
Unsatisfiable. -/
theorem c9_event_attributes_first_value (trace : Trace) (avd : List (String × String))
    (havd : avd ≠ []) :
    check_trace_event_attributes trace avd =
      (if ∀ p ∈ avd, recordedVal trace p.1 = some p.2 then 2 else 0) := by
  simp only [check_trace_event_attributes]
  rw [attrLoop_eq]
  apply if_congr ?_ rfl rfl
  constructor
  · rintro ⟨hall, _⟩
    intro p hp
    have hlk := collect_lookup_none (avd.map fun q => q.1) trace [] p.1 rfl
      (List.mem_map_of_mem _ hp)
    rw [← hlk]
    exact hall p hp
  · intro hall
    refine ⟨?_, by omega⟩
    intro p hp
    have hlk := collect_lookup_none (avd.map fun q => q.1) trace [] p.1 rfl
      (List.mem_map_of_mem _ hp)
    rw [hlk]
    exact hall p hp

theorem c9_event_attributes_first_value_witness :
    check_trace_event_attributes [[("k", "v")]] [("k", "v")] = 2 := by
  have h := c9_event_attributes_first_value [[("k", "v")]] [("k", "v")] (by decide)
  rw [h]
  decide

/-! ### Interleaved-matcher lemmas -/

theorem strictIntGo_eq_names (sequence : List String) :
    ∀ (evs : Trace) (cs : List String) (cnt : Nat),
      strictIntGo sequence evs cs cnt =
        strictIntGoN sequence (evs.map fun e => evGet e "concept:name") cs cnt
  | [], _, _ => rfl
  | e :: rest, cs, cnt => by
    simp only [strictIntGo, strictIntGoN, List.map_cons]
    by_cases h : evGet e "concept:name" ∈ sequence
    · rw [if_pos h, if_pos h]
      by_cases h2 : (if cs.head? = some (evGet e "concept:name") then cs.tail else cs).isEmpty
          = true
      · rw [if_pos h2, if_pos h2]
        exact strictIntGo_eq_names sequence rest sequence (cnt + 1)
      · rw [if_neg h2, if_neg h2]
        exact strictIntGo_eq_names sequence rest _ cnt
    · rw [if_neg h, if_neg h]
      exact strictIntGo_eq_names sequence rest cs cnt

theorem nonstrictIntGo_eq_names (sequence : List String) :
    ∀ (evs : Trace) (cs : List String) (cnt : Nat),
      nonstrictIntGo sequence evs cs cnt =
        nonstrictIntGoN sequence (evs.map fun e => evGet e "concept:name") cs cnt
  | [], _, _ => rfl
  | e :: rest, cs, cnt => by
    simp only [nonstrictIntGo, nonstrictIntGoN, List.map_cons]
    by_cases h : evGet e "concept:name" ∈ sequence
    · rw [if_pos h, if_pos h]
      by_cases h1 : evGet e "concept:name" ∈ cs
      · rw [if_pos h1, if_pos h1]
        by_cases h2 : (cs.erase (evGet e "concept:name")).isEmpty = true
        · rw [if_pos h2, if_pos h2]
          exact nonstrictIntGo_eq_names sequence rest sequence (cnt + 1)
        · rw [if_neg h2, if_neg h2]
          exact nonstrictIntGo_eq_names sequence rest _ cnt
      · rw [if_neg h1, if_neg h1]
        exact nonstrictIntGo_eq_names sequence rest cs cnt
    · rw [if_neg h, if_neg h]
      exact nonstrictIntGo_eq_names sequence rest cs cnt

theorem strictIntGoN_filter (sequence : List String) :
    ∀ (ns cs : List String) (cnt : Nat),
      strictIntGoN sequence ns cs cnt =
        strictIntGoN sequence (ns.filter fun s => decide (s ∈ sequence)) cs cnt
  | [], _, _ => rfl
  | n :: ns, cs, cnt => by
    by_cases h : n ∈ sequence
    · rw [List.filter_cons_of_pos (by simpa using h)]
      simp only [strictIntGoN]
      rw [if_pos h, if_pos h]
      by_cases h2 : (if cs.head? = some n then cs.tail else cs).isEmpty = true
      · rw [if_pos h2, if_pos h2]
        exact strictIntGoN_filter sequence ns sequence (cnt + 1)
      · rw [if_neg h2, if_neg h2]
        exact strictIntGoN_filter sequence ns _ cnt
    · rw [List.filter_cons_of_neg (by simpa using h)]
      simp only [strictIntGoN]
      rw [if_neg h]
      exact strictIntGoN_filter sequence ns cs cnt

theorem nonstrictIntGoN_filter (sequence : List String) :
    ∀ (ns cs : List String) (cnt : Nat),
      nonstrictIntGoN sequence ns cs cnt =
        nonstrictIntGoN sequence (ns.filter fun s => decide (s ∈ sequence)) cs cnt
  | [], _, _ => rfl
  | n :: ns, cs, cnt => by
    by_cases h : n ∈ sequence
    · rw [List.filter_cons_of_pos (by simpa using h)]
      simp only [nonstrictIntGoN]
      rw [if_pos h, if_pos h]
      by_cases h1 : n ∈ cs
      · rw [if_pos h1, if_pos h1]
        by_cases h2 : (cs.erase n).isEmpty = true
        · rw [if_pos h2, if_pos h2]
          exact nonstrictIntGoN_filter sequence ns sequence (cnt + 1)
        · rw [if_neg h2, if_neg h2]
          exact nonstrictIntGoN_filter sequence ns _ cnt
      · rw [if_neg h1, if_neg h1]
        exact nonstrictIntGoN_filter sequence ns cs cnt
    · rw [List.filter_cons_of_neg (by simpa using h)]
      simp only [nonstrictIntGoN]
      rw [if_neg h]
      exact nonstrictIntGoN_filter sequence ns cs cnt

theorem strictIntGoN_cons (sequence : List String) (n : String) (ns cs : List String)
    (cnt : Nat) :
    strictIntGoN sequence (n :: ns) cs cnt =
      if n ∈ sequence then
        if (if cs.head? = some n then cs.tail else cs).isEmpty = true then
          strictIntGoN sequence ns sequence (cnt + 1)
        else strictIntGoN sequence ns (if cs.head? = some n then cs.tail else cs) cnt
      else strictIntGoN sequence ns cs cnt := rfl

theorem nonstrictIntGoN_cons (sequence : List String) (n : String) (ns cs : List String)
    (cnt : Nat) :
    nonstrictIntGoN sequence (n :: ns) cs cnt =
      if n ∈ sequence then
        if n ∈ cs then
          if (cs.erase n).isEmpty = true then nonstrictIntGoN sequence ns sequence (cnt + 1)
          else nonstrictIntGoN sequence ns (cs.erase n) cnt
        else nonstrictIntGoN sequence ns cs cnt
      else nonstrictIntGoN sequence ns cs cnt := rfl

theorem strictIntGoN_block (sequence : List String) :
    ∀ (cs : List String), cs ≠ [] → (∀ x ∈ cs, x ∈ sequence) →
      ∀ (rest : List String) (cnt : Nat),
        strictIntGoN sequence (cs ++ rest) cs cnt = strictIntGoN sequence rest sequence (cnt + 1)
  | [], h, _ => absurd rfl h
  | [a], _, hmem => by
    intro rest cnt
    have hstep : ([a] : List String) ++ rest = a :: rest := rfl
    rw [hstep, strictIntGoN_cons, if_pos (hmem a (List.mem_cons_self a []))]
    simp
  | a :: b :: cs, _, hmem => by
    intro rest cnt
    have hstep : (a :: b :: cs) ++ rest = a :: ((b :: cs) ++ rest) := rfl
    rw [hstep, strictIntGoN_cons, if_pos (hmem a (List.mem_cons_self _ _))]
    have hrec := strictIntGoN_block sequence (b :: cs) (by simp)
      (fun x hx => hmem x (List.mem_cons_of_mem _ hx)) rest cnt
    simpa using hrec

theorem strictIntGoN_stuckPre (sequence : List String) :
    ∀ (p cs : List String) (cnt : Nat), p <+: cs → p ≠ cs → (∀ x ∈ p, x ∈ sequence) →
      strictIntGoN sequence p cs cnt = cnt
  | [], _, _ => by
    intro _ _ _
    rfl
  | a :: p, cs, cnt => by
    intro hpre hne hmem
    obtain ⟨t, ht⟩ := hpre
    have htne : t ≠ [] := by
      intro hh
      apply hne
      rw [← ht, hh, List.append_nil]
    rw [← ht, strictIntGoN_cons, if_pos (hmem a (List.mem_cons_self _ _))]
    have hcopy : (if (a :: p ++ t : List String).head? = some a
        then (a :: p ++ t : List String).tail else a :: p ++ t) = p ++ t := by
      simp
    rw [hcopy]
    have hpt : ¬ (p ++ t).isEmpty = true := by
      cases hq : p ++ t with
      | nil => exact absurd (List.append_eq_nil.mp hq).2 htne
      | cons x xs => simp [hq]
    rw [if_neg hpt]
    refine strictIntGoN_stuckPre sequence p (p ++ t) cnt ⟨t, rfl⟩ ?_
      (fun x hx => hmem x (List.mem_cons_of_mem _ hx))
    intro hh
    have hlen := congrArg List.length hh
    simp only [List.length_append] at hlen
    exact htne (List.length_eq_zero.mp (by omega))

theorem strictIntGoN_reps (sequence p : List String) (hp : p <+: sequence)
    (hpne : p ≠ sequence) :
    ∀ (k cnt : Nat),
      strictIntGoN sequence ((List.replicate k sequence).flatten ++ p) sequence cnt = cnt + k
  | 0, cnt => by
    simp only [List.replicate_zero, List.flatten_nil, List.nil_append, Nat.add_zero]
    refine strictIntGoN_stuckPre sequence p sequence cnt hp hpne ?_
    obtain ⟨t, ht⟩ := hp
    intro x hx
    rw [← ht]
    exact List.mem_append_left t hx
  | k + 1, cnt => by
    have hseqne : sequence ≠ [] := by
      intro hh
      apply hpne
      obtain ⟨t, ht⟩ := hp
      rw [hh] at ht ⊢
      exact (List.append_eq_nil.mp ht).1
    simp only [List.replicate_succ, List.flatten_cons, List.append_assoc]
    rw [strictIntGoN_block sequence sequence hseqne (fun x hx => hx) _ cnt]
    rw [strictIntGoN_reps sequence p hp hpne k (cnt + 1)]
    omega

theorem nonstrictIntGoN_partial (sequence : List String) :
    ∀ (v w c rest : List String) (cnt : Nat),
      c.Perm (v ++ w) → w ≠ [] → (∀ x ∈ v, x ∈ sequence) →
      ∃ c2, c2.Perm w ∧
        nonstrictIntGoN sequence (v ++ rest) c cnt = nonstrictIntGoN sequence rest c2 cnt
  | [], w, c, rest, cnt => by
    intro hperm _ _
    exact ⟨c, by simpa using hperm, rfl⟩
  | a :: v, w, c, rest, cnt => by
    intro hperm hw hmem
    have hperm1 : c.Perm (a :: (v ++ w)) := by simpa using hperm
    have hmema : a ∈ c := hperm1.mem_iff.mpr (List.mem_cons_self _ _)
    simp only [List.cons_append, nonstrictIntGoN]
    rw [if_pos (hmem a (List.mem_cons_self _ _)), if_pos hmema]
    have hperm2 : (c.erase a).Perm (v ++ w) := by
      have h2 := hperm1.erase a
      rw [List.erase_cons_head] at h2
      exact h2
    have hne2 : c.erase a ≠ [] := by
      intro hh
      rw [hh] at hperm2
      have h3 : v ++ w = [] := hperm2.symm.eq_nil
      exact hw (List.append_eq_nil.mp h3).2
    rw [if_neg (by simpa using hne2)]
    exact nonstrictIntGoN_partial sequence v w (c.erase a) rest cnt hperm2 hw
      (fun x hx => hmem x (List.mem_cons_of_mem _ hx))

theorem nonstrictIntGoN_complete (sequence : List String) :
    ∀ (v c rest : List String) (cnt : Nat),
      c.Perm v → (∀ x ∈ v, x ∈ sequence) → v ≠ [] →
      nonstrictIntGoN sequence (v ++ rest) c cnt = nonstrictIntGoN sequence rest sequence (cnt + 1)
  | [], _, _, _ => by
    intro _ _ h
    exact absurd rfl h
  | [a], c, rest, cnt => by
    intro hperm hmem _
    have hmema : a ∈ c := hperm.mem_iff.mpr (List.mem_cons_self _ _)
    simp only [List.cons_append, List.nil_append, nonstrictIntGoN]
    rw [if_pos (hmem a (List.mem_cons_self _ _)), if_pos hmema]
    have hperm2 : (c.erase a).Perm ([] : List String) := by
      have h2 := hperm.erase a
      rw [List.erase_cons_head] at h2
      exact h2
    have hnil : c.erase a = [] := hperm2.eq_nil
    rw [if_pos (by rw [hnil]; rfl)]
    rfl
  | a :: b :: v, c, rest, cnt => by
    intro hperm hmem _
    have hmema : a ∈ c := hperm.mem_iff.mpr (List.mem_cons_self _ _)
    simp only [List.cons_append, nonstrictIntGoN]
    rw [if_pos (hmem a (List.mem_cons_self _ _)), if_pos hmema]
    have hperm2 : (c.erase a).Perm (b :: v) := by
      have h2 := hperm.erase a
      rw [List.erase_cons_head] at h2
      exact h2
    have hne2 : c.erase a ≠ [] := by
      intro hh
      rw [hh] at hperm2
      exact absurd hperm2.symm.eq_nil (by simp)
    rw [if_neg (by simpa using hne2)]
    exact nonstrictIntGoN_complete sequence (b :: v) (c.erase a) rest cnt hperm2
      (fun x hx => hmem x (List.mem_cons_of_mem _ hx)) (by simp)

theorem nonstrictIntGoN_reps (sequence p : List String) (hp : p <+: sequence)
    (hpne : p ≠ sequence) :
    ∀ (k cnt : Nat),
      nonstrictIntGoN sequence ((List.replicate k sequence).flatten ++ p) sequence cnt = cnt + k
  | 0, cnt => by
    simp only [List.replicate_zero, List.flatten_nil, List.nil_append, Nat.add_zero]
    obtain ⟨t, ht⟩ := hp
    have htne : t ≠ [] := by
      intro hh
      apply hpne
      rw [← ht, hh, List.append_nil]
    obtain ⟨c2, _, heq⟩ := nonstrictIntGoN_partial sequence p t sequence [] cnt
      (by rw [ht]) htne (fun x hx => by rw [← ht]; exact List.mem_append_left t hx)
    rw [List.append_nil] at heq
    exact heq.trans rfl
  | k + 1, cnt => by
    have hseqne : sequence ≠ [] := by
      intro hh
      apply hpne
      obtain ⟨t, ht⟩ := hp
      rw [hh] at ht ⊢
      exact (List.append_eq_nil.mp ht).1
    simp only [List.replicate_succ, List.flatten_cons, List.append_assoc]
    rw [nonstrictIntGoN_complete sequence sequence sequence _ cnt (List.Perm.refl sequence)
      (fun x hx => hx) hseqne]
    rw [nonstrictIntGoN_reps sequence p hp hpne k (cnt + 1)]
    omega

/-- C6: the two interleaved matchers agree for every count whenever the events
whose names belong to the pattern occur, in trace order, as consecutive
repetitions of the pattern possibly followed by a proper prefix of it: both
scans then complete exactly `k` occurrences, where `k` is the number of full
repetitions. -/
theorem c6_interleaved_agree (trace : Trace) (sequence : List String) (count k : Nat)
    (p : List String) (hseq : sequence ≠ [])
    (hfilter : (trace.map fun e => evGet e "concept:name").filter
        (fun s => decide (s ∈ sequence)) = (List.replicate k sequence).flatten ++ p)
    (hp : p <+: sequence) (hpne : p ≠ sequence) :
    check_sequence_nonstrict_order_interleaved trace sequence count =
      check_sequence_strict_order_interleaved trace sequence count := by
  have hs : strictIntGo sequence trace sequence 0 = k := by
    rw [strictIntGo_eq_names, strictIntGoN_filter, hfilter,
      strictIntGoN_reps sequence p hp hpne k 0]
    omega
  have hn : nonstrictIntGo sequence trace sequence 0 = k := by
    rw [nonstrictIntGo_eq_names, nonstrictIntGoN_filter, hfilter,
      nonstrictIntGoN_reps sequence p hp hpne k 0]
    omega
  simp only [check_sequence_nonstrict_order_interleaved,
    check_sequence_strict_order_interleaved, hs, hn]

theorem c6_interleaved_agree_witness :
    check_sequence_nonstrict_order_interleaved [mkEv "A", mkEv "X", mkEv "B"] ["A", "B"] 1 =
      check_sequence_strict_order_interleaved [mkEv "A", mkEv "X", mkEv "B"] ["A", "B"] 1 :=
  c6_interleaved_agree [mkEv "A", mkEv "X", mkEv "B"] ["A", "B"] 1 1 [] (by decide)
    (by decide) ⟨["A", "B"], rfl⟩ (by decide)

/-! ### Joined-string versus name-run correspondence (for single-character names) -/

theorem greedyCountGo_pos' {α : Type} [BEq α] (pat s : List α) (hp : pat ≠ []) (hs : s ≠ [])
    (h : pat.isPrefixOf s = true) :
    greedyCountGo pat s 0 = 1 + greedyCountGo pat (s.drop pat.length) 0 := by
  cases s with
  | nil => exact absurd rfl hs
  | cons c t => exact greedyCountGo_cons_pos pat hp c t h

theorem greedyCountGo_neg' {α : Type} [BEq α] (pat s : List α) (hs : s ≠ [])
    (h : ¬ pat.isPrefixOf s = true) :
    greedyCountGo pat s 0 = greedyCountGo pat s.tail 0 := by
  cases s with
  | nil => exact absurd rfl hs
  | cons c t => simpa using greedyCountGo_cons_neg pat c t h

theorem intersperse_singletons :
    ∀ (cs : List Char),
      List.intercalate [hackDelim] (cs.map fun c => [c]) = cs.intersperse hackDelim
  | [] => rfl
  | [c] => by simp [List.intercalate]
  | c1 :: c2 :: cs => by
    have h2 : (c2 :: cs).map (fun c => ([c] : List Char)) ≠ [] := by simp
    rw [List.map_cons, intercalate_cons_of_ne_nil [hackDelim] [c1] _ h2,
      intersperse_singletons (c2 :: cs), List.intersperse_cons_cons]
    simp

theorem map_data_singletons :
    ∀ (ns : List String), (∀ s ∈ ns, ∃ c, c ≠ hackDelim ∧ s.data = [c]) →
      ns.map String.data = (ns.map toChar).map (fun c => [c])
  | [], _ => rfl
  | s :: ns, h => by
    obtain ⟨c, _, hc⟩ := h s (List.mem_cons_self _ _)
    simp only [List.map_cons]
    rw [map_data_singletons ns (fun x hx => h x (List.mem_cons_of_mem _ hx))]
    rw [hc]
    simp [toChar, hc]

theorem isPrefixOf_map_beq {α β : Type} [BEq α] [BEq β] (f : α → β) :
    ∀ (ps ns : List α), (∀ a ∈ ps, ∀ b ∈ ns, (f a == f b) = (a == b)) →
      (ps.map f).isPrefixOf (ns.map f) = ps.isPrefixOf ns
  | [], _, _ => by simp [List.isPrefixOf]
  | _ :: _, [], _ => by simp [List.isPrefixOf]
  | a :: ps, b :: ns, h => by
    simp only [List.map_cons, List.isPrefixOf]
    rw [h a (List.mem_cons_self _ _) b (List.mem_cons_self _ _),
      isPrefixOf_map_beq f ps ns
        (fun x hx y hy => h x (List.mem_cons_of_mem _ hx) y (List.mem_cons_of_mem _ hy))]

theorem greedyCountGo_map_beq {α β : Type} [BEq α] [BEq β] (f : α → β) :
    ∀ (ns ps : List α) (k : Nat),
      (∀ a ∈ ps, ∀ b ∈ ns, (f a == f b) = (a == b)) →
      greedyCountGo (ps.map f) (ns.map f) k = greedyCountGo ps ns k
  | [], _, _, _ => by simp [greedyCountGo]
  | c :: ns, ps, k, h => by
    have htail : ∀ a ∈ ps, ∀ b ∈ ns, (f a == f b) = (a == b) :=
      fun a ha b hb => h a ha b (List.mem_cons_of_mem _ hb)
    simp only [List.map_cons, greedyCountGo]
    by_cases hk : 0 < k
    · rw [if_pos hk, if_pos hk]
      exact greedyCountGo_map_beq f ns ps (k - 1) htail
    · rw [if_neg hk, if_neg hk]
      have hpre : (ps.map f).isPrefixOf (f c :: ns.map f) = ps.isPrefixOf (c :: ns) := by
        have hx := isPrefixOf_map_beq f ps (c :: ns) h
        simpa using hx
      by_cases hp : ps.isPrefixOf (c :: ns) = true
      · have hp' : (ps.map f).isPrefixOf (f c :: ns.map f) = true := by rw [hpre]; exact hp
        rw [if_pos hp', if_pos hp, List.length_map]
        rw [greedyCountGo_map_beq f ns ps (ps.length - 1) htail]
      · have hp' : ¬ (ps.map f).isPrefixOf (f c :: ns.map f) = true := by rw [hpre]; exact hp
        rw [if_neg hp', if_neg hp]
        exact greedyCountGo_map_beq f ns ps 0 htail

theorem intersperse_ne_nil (d : Char) :
    ∀ (l : List Char), l ≠ [] → l.intersperse d ≠ []
  | [], h => absurd rfl h
  | [_], _ => by simp
  | a :: b :: t, _ => by simp [List.intersperse_cons_cons]

theorem intersperse_cons_head (d a : Char) (l : List Char) :
    ∃ t, (a :: l).intersperse d = a :: t := by
  cases l with
  | nil => exact ⟨[], rfl⟩
  | cons b t => exact ⟨d :: (b :: t).intersperse d, by rw [List.intersperse_cons_cons]⟩

theorem intersperse_append_ne_nil (d : Char) :
    ∀ (as bs : List Char), as ≠ [] → bs ≠ [] →
      (as ++ bs).intersperse d = as.intersperse d ++ d :: bs.intersperse d
  | [], _, hA, _ => absurd rfl hA
  | [a], bs, _, hB => by
    cases bs with
    | nil => exact absurd rfl hB
    | cons b t =>
      have hstep : ([a] ++ b :: t : List Char) = a :: b :: t := rfl
      rw [hstep, List.intersperse_cons_cons]
      simp
  | a :: a2 :: as, bs, _, hB => by
    have h2 : a2 :: as ≠ [] := by simp
    have hcons : (a2 :: as) ++ bs = a2 :: (as ++ bs) := rfl
    rw [List.cons_append, hcons, List.intersperse_cons_cons, ← hcons,
      intersperse_append_ne_nil d (a2 :: as) bs h2 hB, List.intersperse_cons_cons]
    simp

theorem isPrefixOf_intersperse (d : Char) :
    ∀ (qs cs : List Char),
      (qs.intersperse d).isPrefixOf (cs.intersperse d) = qs.isPrefixOf cs
  | [], cs => by simp [List.isPrefixOf]
  | q :: qs, [] => by
    cases qs with
    | nil => simp [List.isPrefixOf]
    | cons q2 t => simp [List.intersperse_cons_cons, List.isPrefixOf]
  | [q], c :: cs => by
    cases cs with
    | nil => simp [List.isPrefixOf]
    | cons c2 t => simp [List.intersperse_cons_cons, List.isPrefixOf]
  | q :: q2 :: qs, c :: cs => by
    cases cs with
    | nil =>
      simp [List.intersperse_cons_cons, List.isPrefixOf]
    | cons c2 t =>
      simp only [List.intersperse_cons_cons, List.isPrefixOf]
      rw [isPrefixOf_intersperse d (q2 :: qs) (c2 :: t)]
      simp [List.isPrefixOf]

theorem not_isPrefixOf_delim (qs : List Char) (hq : qs ≠ [])
    (hd : ∀ c ∈ qs, c ≠ hackDelim) (X : List Char) :
    ¬ (qs.intersperse hackDelim).isPrefixOf (hackDelim :: X) = true := by
  obtain ⟨q1, qt, hqeq⟩ : ∃ q1 qt, qs = q1 :: qt := by
    cases qs with
    | nil => exact absurd rfl hq
    | cons q1 qt => exact ⟨q1, qt, rfl⟩
  obtain ⟨t0, ht0⟩ := intersperse_cons_head hackDelim q1 qt
  intro hc
  rw [hqeq, ht0] at hc
  simp only [List.isPrefixOf, Bool.and_eq_true, beq_iff_eq] at hc
  exact (hd q1 (by rw [hqeq]; exact List.mem_cons_self _ _)) hc.1

theorem core_count (qs : List Char) (hq : qs ≠ []) (hd : ∀ c ∈ qs, c ≠ hackDelim) :
    ∀ (n : Nat) (cs : List Char), cs.length ≤ n →
      greedyCountGo (qs.intersperse hackDelim) (cs.intersperse hackDelim) 0 =
        greedyCountGo qs cs 0
  | _, [], _ => by simp [greedyCountGo]
  | 0, _ :: _, hn => by simp at hn
  | n + 1, c :: cs, hn => by
    have hqlen : 1 ≤ qs.length := by
      cases qs with
      | nil => exact absurd rfl hq
      | cons q1 qt => simp
    by_cases hpre : qs.isPrefixOf (c :: cs) = true
    · have hpreI : (qs.intersperse hackDelim).isPrefixOf
          ((c :: cs).intersperse hackDelim) = true := by
        rw [isPrefixOf_intersperse]
        exact hpre
      rw [greedyCountGo_pos' (qs.intersperse hackDelim) ((c :: cs).intersperse hackDelim)
        (intersperse_ne_nil hackDelim qs hq) (intersperse_ne_nil hackDelim (c :: cs) (by simp))
        hpreI]
      rw [greedyCountGo_pos' qs (c :: cs) hq (by simp) hpre]
      congr 1
      obtain ⟨w, hw⟩ := (isPrefixOf_iff_exists qs (c :: cs)).mp hpre
      cases w with
      | nil =>
        rw [List.append_nil] at hw
        rw [← hw, List.drop_length, List.drop_length]
        simp [greedyCountGo]
      | cons w1 wt =>
        have hsplit : (c :: cs).intersperse hackDelim =
            qs.intersperse hackDelim ++ hackDelim :: (w1 :: wt).intersperse hackDelim := by
          rw [hw]
          exact intersperse_append_ne_nil hackDelim qs (w1 :: wt) hq (by simp)
        rw [hsplit, List.drop_left]
        rw [greedyCountGo_neg' (qs.intersperse hackDelim)
          (hackDelim :: (w1 :: wt).intersperse hackDelim) (by simp)
          (not_isPrefixOf_delim qs hq hd ((w1 :: wt).intersperse hackDelim))]
        simp only [List.tail_cons]
        have hwlen : (w1 :: wt).length ≤ n := by
          have hlw := congrArg List.length hw
          simp only [List.length_cons, List.length_append] at hlw hn ⊢
          omega
        rw [core_count qs hq hd n (w1 :: wt) hwlen]
        rw [hw, List.drop_left]
    · have hnpreI : ¬ (qs.intersperse hackDelim).isPrefixOf
          ((c :: cs).intersperse hackDelim) = true := by
        rw [isPrefixOf_intersperse]
        exact hpre
      rw [greedyCountGo_neg' qs (c :: cs) (by simp) hpre]
      simp only [List.tail_cons]
      cases cs with
      | nil =>
        simp only [List.intersperse_singleton] at hnpreI ⊢
        rw [greedyCountGo_neg' (qs.intersperse hackDelim) [c] (by simp) hnpreI]
        simp [greedyCountGo]
      | cons c2 cs' =>
        rw [List.intersperse_cons_cons] at hnpreI ⊢
        rw [greedyCountGo_neg' (qs.intersperse hackDelim)
          (c :: hackDelim :: (c2 :: cs').intersperse hackDelim) (by simp) hnpreI]
        simp only [List.tail_cons]
        rw [greedyCountGo_neg' (qs.intersperse hackDelim)
          (hackDelim :: (c2 :: cs').intersperse hackDelim) (by simp)
          (not_isPrefixOf_delim qs hq hd ((c2 :: cs').intersperse hackDelim))]
        simp only [List.tail_cons]
        exact core_count qs hq hd n (c2 :: cs') (by simpa using hn)

/-- C2 (amended): with every activity name in the trace and the pattern a
single character different from the delimiter, and the trace at least `count`
long, the strict contiguous matcher is Satisfied exactly when the pattern
occurs as a contiguous run of the same names in the same order at least
`count` times, counted non-overlapping by the left-to-right greedy scan
`runCountGreedy` that restarts after each completed match. -/
theorem c2_strict_order_amended (trace : Trace) (sequence : List String) (count : Nat)
    (nm : String) (hseq : sequence ≠ []) (hlen : count ≤ trace.length)
    (hnames : ∀ s ∈ (trace.map fun e => evGet e nm) ++ sequence,
      ∃ c : Char, c ≠ hackDelim ∧ s.data = [c]) :
    check_sequence_strict_order trace sequence count nm =
      (if count ≤ runCountGreedy (trace.map fun e => evGet e nm) sequence then 2 else 0) := by
  have hns : ∀ s ∈ (trace.map fun e => evGet e nm), ∃ c, c ≠ hackDelim ∧ s.data = [c] :=
    fun s hs => hnames s (List.mem_append_left _ hs)
  have hps : ∀ s ∈ sequence, ∃ c, c ≠ hackDelim ∧ s.data = [c] :=
    fun s hs => hnames s (List.mem_append_right _ hs)
  have hmapmap : trace.map (fun e => (evGet e nm).data) =
      (trace.map fun e => evGet e nm).map String.data := by
    rw [List.map_map]
    rfl
  have hdataN := map_data_singletons (trace.map fun e => evGet e nm) hns
  have hdataP := map_data_singletons sequence hps
  have hqs_ne : sequence.map toChar ≠ [] := by
    intro hc
    exact hseq (List.map_eq_nil_iff.mp hc)
  have hqd : ∀ c ∈ sequence.map toChar, c ≠ hackDelim := by
    intro c hc
    obtain ⟨s, hs, hrfl⟩ := List.mem_map.mp hc
    obtain ⟨c0, hc0, hdata⟩ := hps s hs
    rw [← hrfl]
    simpa [toChar, hdata] using hc0
  have hbeq : ∀ a ∈ sequence, ∀ b ∈ (trace.map fun e => evGet e nm),
      (toChar a == toChar b) = (a == b) := by
    intro a ha b hb
    obtain ⟨ca, _, hda⟩ := hps a ha
    obtain ⟨cb, _, hdb⟩ := hns b hb
    have hta : toChar a = ca := by simp [toChar, hda]
    have htb : toChar b = cb := by simp [toChar, hdb]
    rw [hta, htb]
    by_cases hcc : ca = cb
    · have hab : a = b := String.ext_iff.mpr (by rw [hda, hdb, hcc])
      subst hcc
      simp [hab]
    · have hab : ¬ a = b := by
        intro hh
        apply hcc
        rw [hh] at hda
        rw [hda] at hdb
        exact ((List.cons.injEq ca [] cb []).mp hdb).1
      rw [beq_eq_false_iff_ne.mpr hcc, beq_eq_false_iff_ne.mpr hab]
  simp only [check_sequence_strict_order]
  rw [if_neg (by omega : ¬ trace.length < count)]
  rw [hmapmap, hdataN, hdataP, intersperse_singletons, intersperse_singletons]
  have hIntNe : (sequence.map toChar).intersperse hackDelim ≠ [] :=
    intersperse_ne_nil hackDelim _ hqs_ne
  have hPe : ((sequence.map toChar).intersperse hackDelim).isEmpty = false := by
    cases hc : (sequence.map toChar).intersperse hackDelim with
    | nil => exact absurd hc hIntNe
    | cons x xs => rfl
  simp only [pyCount, hPe, Bool.false_eq_true, if_false]
  rw [core_count (sequence.map toChar) hqs_ne hqd
    ((trace.map fun e => evGet e nm).map toChar).length
    ((trace.map fun e => evGet e nm).map toChar) (Nat.le_refl _)]
  rw [greedyCountGo_map_beq toChar (trace.map fun e => evGet e nm) sequence 0 hbeq]
  rfl

theorem c2_strict_order_amended_witness :
    check_sequence_strict_order [mkEv "A"] ["A"] 1 "concept:name" =
      (if 1 ≤ runCountGreedy (([mkEv "A"] : Trace).map fun e => evGet e "concept:name") ["A"]
        then 2 else 0) := by
  have hlist : (([mkEv "A"] : Trace).map fun e => evGet e "concept:name") ++ ["A"] =
      ["A", "A"] := by decide
  refine c2_strict_order_amended [mkEv "A"] ["A"] 1 "concept:name" (by decide) (by decide) ?_
  intro s hs
  rw [hlist] at hs
  have hs2 : s = "A" := by
    rcases List.mem_cons.mp hs with h | h
    · exact h
    · rcases List.mem_cons.mp h with h2 | h2
      · exact h2
      · exact absurd h2 (List.not_mem_nil s)
  rw [hs2]
  exact ⟨'A', by decide, rfl⟩

end DevMining
